import Mathlib

/-!
# Word Scramble — verification of the matching/scoring/ranking core

Shallow embedding of the Word Scramble game sources:
* `src/wordScramble.js` (the "in-place" variant, called variant A below), and
* `src/unnamed/part_000` (the "single-argument" variant, variant B).

Strings are modelled as `List Char`.  JavaScript numbers appearing in the
scoring path are modelled as `Option Nat`: `none` stands for the JS `NaN`
that arises when a letter is missing from the score table (`undefined`
arithmetic); `some n` stands for an ordinary non-negative integer result.
The host functions `isNaN`/`Number(string)` and `parseInt` are modelled for
the string inputs the program can feed them (see `jsIsNaN`, `jsParseInt`).
-/

namespace WordScramble

/-! ## Character classes used by the source regexes -/

/-- `[0-9]` — digit class of `removeNumbers` (`/[0-9]+/g`). -/
def isDecDigit (c : Char) : Bool := decide ('0' ≤ c) && decide (c ≤ '9')

def isAsciiLower (c : Char) : Bool := decide ('a' ≤ c) && decide (c ≤ 'z')

def isAsciiUpper (c : Char) : Bool := decide ('A' ≤ c) && decide (c ≤ 'Z')

def isAsciiLetter (c : Char) : Bool := isAsciiLower c || isAsciiUpper c

/-! ## Word formatting helpers (shared by both variants) -/

/-- `removeWhitespaces`: `str.replace(/ /g, "")` — removes every literal
space character (only U+0020; the regex matches nothing else). -/
def removeWhitespaces (s : List Char) : List Char := s.filter (fun c => c ≠ ' ')

/-- `removeNumbers`: `str.replace(/[0-9]+/g, "")` — removes every digit. -/
def removeNumbers (s : List Char) : List Char := s.filter (fun c => !isDecDigit c)

/-- Character kept by variant A's `removeSpecialCharacters` regex
`/[^a-zà-üA-ZÀ-Ü]+/g` (wordScramble.js line 599): ASCII letters plus the
Latin-1 ranges U+00E0–U+00FC and U+00C0–U+00DC. -/
def keepSpecialA (c : Char) : Bool :=
  isAsciiLetter c || (decide ('à' ≤ c) && decide (c ≤ 'ü')) ||
    (decide ('À' ≤ c) && decide (c ≤ 'Ü'))

/-- Variant A `removeSpecialCharacters` (wordScramble.js line 597). -/
def removeSpecialCharactersA (s : List Char) : List Char := s.filter keepSpecialA

/-- JS `\w` (no unicode flag): `[A-Za-z0-9_]`. -/
def isJsWordChar (c : Char) : Bool := isAsciiLetter c || isDecDigit c || c = '_'

/-- JS `\s`: whitespace class (the members that can appear in our Latin-1
modelling domain: space, tab, LF, VT, FF, CR, NBSP). -/
def isJsSpace (c : Char) : Bool :=
  c = ' ' || c = '\t' || c = '\n' || c = '\x0b' || c = '\x0c' || c = '\r' ||
    c = ' '

/-- Variant B `removeSpecialCharacters`: `str.replace(/[^\w\s]+/g, "")`
(part_000 line 607) — keeps word characters and whitespace. -/
def removeSpecialCharactersB (s : List Char) : List Char :=
  s.filter (fun c => isJsWordChar c || isJsSpace c)

/-- `String.prototype.toUpperCase` on one character, modelled faithfully on
the Basic Latin and Latin-1 blocks (the only characters the surrounding
pipeline can feed it in this development); identity elsewhere.  Note the
Latin-1 specials: `ß ↦ "SS"` (two characters), `µ ↦ Μ`, `ÿ ↦ Ÿ`, and `÷`
(U+00F7, inside the `à`–`þ` run) is not a letter and is unchanged. -/
def jsUpperChar (c : Char) : List Char :=
  if isAsciiLower c then [Char.ofNat (c.toNat - 32)]
  else if c = 'ß' then ['S', 'S']
  else if c = 'µ' then ['Μ']
  else if c = 'ÿ' then ['Ÿ']
  else if decide ('à' ≤ c) && decide (c ≤ 'þ') && c ≠ '÷' then
    [Char.ofNat (c.toNat - 32)]
  else [c]

/-- `uppercase`: `str.toUpperCase()`. -/
def jsToUpper (s : List Char) : List Char := s.flatMap jsUpperChar

/-- `String.prototype.replace(letter, repl)` with a plain one-character
search string: replaces the first occurrence only. -/
def replaceFirst : List Char → Char → Char → List Char
  | [], _, _ => []
  | x :: xs, c, r => if x = c then r :: xs else x :: replaceFirst xs c r

/-- `removeAccentuation` (identical in both files): iterates over the
letters of the string captured at loop entry and, for each letter that is a
key of the accentuation table, replaces its first occurrence in the current
string with the table value.  The accentuation table (an asset file, not in
`src/`) is a parameter `acc`, with single-character replacement values. -/
def removeAccentuation (acc : Char → Option Char) (s : List Char) : List Char :=
  s.foldl
    (fun cur letter =>
      match acc letter with
      | some r => replaceFirst cur letter r
      | none => cur)
    s

/-- Variant A `formatWord` (wordScramble.js line 530): whitespace, numbers
and special characters are stripped first, then uppercase, then accent
folding. -/
def formatWordA (acc : Char → Option Char) (s : List Char) : List Char :=
  removeAccentuation acc
    (jsToUpper (removeSpecialCharactersA (removeNumbers (removeWhitespaces s))))

/-- Variant B `formatWord` (part_000 line 493): uppercase first, then
whitespace, numbers, accent folding, and finally special characters. -/
def formatWordB (acc : Char → Option Char) (s : List Char) : List Char :=
  removeSpecialCharactersB
    (removeAccentuation acc (removeNumbers (removeWhitespaces (jsToUpper s))))

/-! ## Matcher -/

/-- Result of `matchWord`: `{ check, unused }`.  The source's failure value
`{ check: false }` carries no `unused` field (it is never read on failure);
it is modelled as `unused = []`. -/
structure MatchResult where
  check : Bool
  unused : List Char
deriving DecidableEq, Repr

/-- Loop of `matchWord` (wordScramble.js line 302).  `word` is the remaining
candidate letters, the input letters are scanned left to right, `unused`
accumulates scanned letters that were not found in the remaining word.
When a letter is found, its first occurrence is removed (`indexOf` +
`splice(index, 1)` = erase of the first occurrence); if the word becomes
empty the match succeeds and all not-yet-scanned letters join `unused`. -/
def matchWordGo : List Char → List Char → List Char → MatchResult
  | _, [], _ => ⟨false, []⟩
  | word, l :: rest, unused =>
    if l ∈ word then
      if word.erase l = [] then ⟨true, unused ++ rest⟩
      else matchWordGo (word.erase l) rest unused
    else matchWordGo word rest (unused ++ [l])

/-- `matchWord(word, input)` (wordScramble.js line 302). -/
def matchWord (word input : List Char) : MatchResult := matchWordGo word input []

/-! ## Scorer -/

/-- Inner loop of `scoreWords` (wordScramble.js line 199) on a single word.
`tbl` is the letter score table (`this.score`); a letter missing from the
table makes the whole sum `NaN` in JS, modelled as `none`.  `bonus` is
`parseInt(bonus.position)`: `some b` for an integer, `none` for `NaN`
(`NaN === i` is false for every `i`, so `none` never doubles).  `i` is the
0-based index; the comparison is against `i + 1` (`parseInt(++index)`). -/
def scoreWordGo (tbl : Char → Option Nat) (bonus : Option Int) :
    List Char → Nat → Option Nat
  | [], _ => some 0
  | c :: cs, i =>
    match tbl c, scoreWordGo tbl bonus cs (i + 1) with
    | some v, some s =>
        some ((if bonus = some ((i : Int) + 1) then 2 * v else v) + s)
    | _, _ => none

/-- Score of one word with a bonus position (wordScramble.js line 199). -/
def scoreWord (tbl : Char → Option Nat) (bonus : Option Int) (word : List Char) :
    Option Nat :=
  scoreWordGo tbl bonus word 0

/-! ## Bonus-position validation

`checkBonusPosition` (wordScramble.js line 341, part_000 line 307) removes
spaces and then evaluates `!isNaN(bonus) && parseInt(bonus) >= 0`.  The two
host functions are modelled below per the ECMAScript string-to-number rules
on the character set this program handles. -/

def isHexDigit (c : Char) : Bool :=
  isDecDigit c || (decide ('a' ≤ c) && decide (c ≤ 'f')) ||
    (decide ('A' ≤ c) && decide (c ≤ 'F'))

def isOctDigit (c : Char) : Bool := decide ('0' ≤ c) && decide (c ≤ '7')

def isBinDigit (c : Char) : Bool := c = '0' || c = '1'

/-- Trim `isJsSpace` whitespace from both ends (string-to-number trimming). -/
def jsTrim (s : List Char) : List Char :=
  ((s.dropWhile isJsSpace).reverse.dropWhile isJsSpace).reverse

/-- Exponent part of a decimal literal: empty, or `e`/`E`, optional sign,
one or more digits. -/
def expPartOk : List Char → Bool
  | [] => true
  | c :: rest =>
    if c = 'e' || c = 'E' then
      let rest' :=
        match rest with
        | s :: r => if s = '+' || s = '-' then r else s :: r
        | [] => []
      !rest'.isEmpty && rest'.all isDecDigit
    else false

/-- Unsigned decimal numeric string: `digits`, `digits.`, `digits.digits`,
or `.digits`, each followed by an optional exponent. -/
def unsignedDecimalOk (s : List Char) : Bool :=
  let ip := s.takeWhile isDecDigit
  let r1 := s.dropWhile isDecDigit
  if ip.isEmpty then
    match r1 with
    | '.' :: r2 =>
      let fp := r2.takeWhile isDecDigit
      let r3 := r2.dropWhile isDecDigit
      !fp.isEmpty && expPartOk r3
    | _ => false
  else
    match r1 with
    | [] => true
    | '.' :: r2 => expPartOk (r2.dropWhile isDecDigit)
    | _ => expPartOk r1

/-- Does `Number(s)` (after trimming) yield a non-NaN value?  The empty
string converts to `0`; a sign may precede `Infinity` or a decimal literal;
`0x`/`0o`/`0b` literals take no sign. -/
def jsNumericOk (s : List Char) : Bool :=
  match s with
  | [] => true
  | c :: rest =>
    let signed : Bool := c = '+' || c = '-'
    let body := if signed then rest else c :: rest
    if body = ['I', 'n', 'f', 'i', 'n', 'i', 't', 'y'] then true
    else
      match body with
      | b0 :: b1 :: ds =>
        if !signed && b0 = '0' && (b1 = 'x' || b1 = 'X') then
          !ds.isEmpty && ds.all isHexDigit
        else if !signed && b0 = '0' && (b1 = 'o' || b1 = 'O') then
          !ds.isEmpty && ds.all isOctDigit
        else if !signed && b0 = '0' && (b1 = 'b' || b1 = 'B') then
          !ds.isEmpty && ds.all isBinDigit
        else unsignedDecimalOk (b0 :: b1 :: ds)
      | _ => unsignedDecimalOk body

/-- `isNaN(s)`: string-to-number conversion produces NaN. -/
def jsIsNaN (s : List Char) : Bool := !jsNumericOk (jsTrim s)

/-- Numeric value of a digit string (most significant first). -/
def decValue (ds : List Char) : Nat :=
  ds.foldl (fun acc c => 10 * acc + (c.toNat - '0'.toNat)) 0

def hexDigitValue (c : Char) : Nat :=
  if isDecDigit c then c.toNat - '0'.toNat
  else if decide ('a' ≤ c) && decide (c ≤ 'f') then c.toNat - 'a'.toNat + 10
  else c.toNat - 'A'.toNat + 10

def hexValue (ds : List Char) : Nat :=
  ds.foldl (fun acc c => 16 * acc + hexDigitValue c) 0

/-- Magnitude part of `parseInt`: a `0x`/`0X` prefix switches to base 16,
otherwise the longest prefix of decimal digits is taken; NaN (`none`) when
no digit is found. -/
def parseIntMag (body : List Char) : Option Nat :=
  match body with
  | b0 :: b1 :: rest =>
    if b0 = '0' && (b1 = 'x' || b1 = 'X') then
      let ds := rest.takeWhile isHexDigit
      if ds.isEmpty then none else some (hexValue ds)
    else
      let ds := (b0 :: b1 :: rest).takeWhile isDecDigit
      if ds.isEmpty then none else some (decValue ds)
  | _ =>
    let ds := body.takeWhile isDecDigit
    if ds.isEmpty then none else some (decValue ds)

/-- `parseInt(s)` with no radix argument: skip leading whitespace, optional
sign, then the magnitude per `parseIntMag`. -/
def jsParseInt (s : List Char) : Option Int :=
  match s.dropWhile isJsSpace with
  | [] => none
  | c :: r =>
    let neg : Bool := c = '-'
    let body := if c = '+' || c = '-' then r else c :: r
    match parseIntMag body with
    | none => none
    | some m => some (if neg then -(m : Int) else (m : Int))

/-- `checkBonusPosition` (wordScramble.js line 341): strip spaces, then
`!isNaN(position) && parseInt(position) >= 0` (`NaN >= 0` is false). -/
def checkBonusPosition (s : List Char) : Bool :=
  let s' := removeWhitespaces s
  !jsIsNaN s' &&
    (match jsParseInt s' with
     | some n => decide (0 ≤ n)
     | none => false)

/-! ## Candidates, buildWords, scoreWords -/

/-- `{ word, unusedLetters }` as pushed by `buildWords`. -/
structure MatchCand where
  word : List Char
  unusedLetters : List Char
deriving DecidableEq, Repr

/-- A match candidate after `scoreWords` stored its `score` field.  JS runs
that would store `NaN` are not represented here (see `scoreWords`). -/
structure ScoredCand where
  word : List Char
  unusedLetters : List Char
  score : Nat
deriving DecidableEq, Repr

/-- `formatUnusedLetters`: `[...letters].join(', ')`. -/
def formatUnusedLetters : List Char → List Char
  | [] => []
  | [c] => [c]
  | c :: d :: rest => c :: ',' :: ' ' :: formatUnusedLetters (d :: rest)

/-- `buildWords` (wordScramble.js line 245): for each dictionary word in
order, normalize it with variant A's `formatWord`, match it against the
(already normalized) input letters, and keep `{word, unusedLetters}` when
the match succeeds. -/
def buildWords (acc : Char → Option Char) (dict : List (List Char))
    (input : List Char) : List MatchCand :=
  dict.filterMap fun raw =>
    let w := formatWordA acc raw
    let m := matchWord w input
    if m.check then some ⟨w, formatUnusedLetters m.unused⟩ else none

/-- `scoreWords` (wordScramble.js line 199) over the candidate list.  In JS
the loop always completes, storing `NaN` scores for words with letters
missing from the table; since `NaN` has no `Nat` counterpart such runs are
modelled as `none`, and the scored list is produced (`some`) exactly on the
runs where every score is an actual number. -/
def scoreWords (tbl : Char → Option Nat) (bonus : Option Int) :
    List MatchCand → Option (List ScoredCand)
  | [] => some []
  | c :: rest =>
    match scoreWord tbl bonus c.word, scoreWords tbl bonus rest with
    | some s, some rest' => some (⟨c.word, c.unusedLetters, s⟩ :: rest')
    | _, _ => none

/-! ## Ranker

JS `Array.prototype.sort` with a comparator is a stable sort placing `a`
no later than `b` whenever the comparator does not return a positive
number; it is modelled with the stable `List.mergeSort`. -/

/-- `sortWordsByScore` comparator `b.score - a.score`: keep `a` before `b`
iff `b.score - a.score ≤ 0`, i.e. descending score. -/
def scoreLe (a b : ScoredCand) : Bool := b.score ≤ a.score

/-- `sortWordsByLength` comparator `a.word.length - b.word.length`:
ascending length. -/
def lengthLe (a b : ScoredCand) : Bool := a.word.length ≤ b.word.length

/-- Lexicographic comparison of words; models `a.word.localeCompare(b.word)
≤ 0` for the canonical (uppercase A–Z) words the ranker compares. -/
def lexLe : List Char → List Char → Bool
  | [], _ => true
  | _ :: _, [] => false
  | x :: xs, y :: ys => if x = y then lexLe xs ys else decide (x < y)

/-- `sortWordsAlphabetically` comparator. -/
def alphaLe (a b : ScoredCand) : Bool := lexLe a.word b.word

/-- `removeLowerScores` (wordScramble.js line 440): truncate the array at
the first index whose score differs from the score of element 0.  (On an
empty array the JS code would throw; the ranker is only invoked on
non-empty arrays.) -/
def removeLowerScores : List ScoredCand → List ScoredCand
  | [] => []
  | c :: rest => c :: rest.takeWhile (fun x => x.score = c.score)

/-- `removeHigherLengths` (wordScramble.js line 470): truncate the array at
the first index whose word is strictly longer than element 0's word. -/
def removeHigherLengths : List ScoredCand → List ScoredCand
  | [] => []
  | c :: rest => c :: rest.takeWhile (fun x => x.word.length ≤ c.word.length)

/-- `rankWords` (wordScramble.js line 159): sort by descending score and
drop lower scores; if more than one remains, sort by ascending length and
drop longer words; if more than one still remains, sort alphabetically.
The caller reads the winner at index 0. -/
def rankWords (l : List ScoredCand) : List ScoredCand :=
  let l1 := removeLowerScores (l.mergeSort scoreLe)
  if 1 < l1.length then
    let l2 := removeHigherLengths (l1.mergeSort lengthLe)
    if 1 < l2.length then l2.mergeSort alphaLe else l2
  else l1

/-- The winner printed by the caller: `matchedWords[0]` after `rankWords`. -/
def rankWinner (l : List ScoredCand) : Option ScoredCand := (rankWords l).head?

/-- One full round of the core pipeline (getUserInputs, wordScramble.js
lines 104–110): build the matched words over the dictionary, score them
(`bonus` is the parsed bonus position), rank them and take the winner.
`none` when no word matches or a score table lookup failed. -/
def roundWinner (acc : Char → Option Char) (tbl : Char → Option Nat)
    (bonus : Option Int) (dict : List (List Char)) (input : List Char) :
    Option ScoredCand :=
  match scoreWords tbl bonus (buildWords acc dict input) with
  | some scored => rankWinner scored
  | none => none

/-! ## Spec-side matcher (for the refinement claim about unused letters)

Modelled from the spec (§4.2 Matcher): the candidate word is treated as a
multiset; input letters are scanned left to right; a letter present in the
remaining multiset removes one occurrence, and if the multiset becomes
empty the match succeeds with the accumulated unused letters followed by
the not-yet-scanned input letters; a letter not present is appended to the
unused accumulator; if the scan ends with a non-empty multiset the match
fails (no meaningful unused letters). -/
def matchSpecGo (cand : Multiset Char) (input : List Char) (unused : List Char) :
    Bool × List Char :=
  match input with
  | [] => (false, [])
  | l :: rest =>
    if l ∈ cand then
      if cand.erase l = 0 then (true, unused ++ rest)
      else matchSpecGo (cand.erase l) rest unused
    else matchSpecGo cand rest (unused ++ [l])

/-! ## Concrete tables used in examples and witnesses -/

/-- The score table `{A: 1, C: 3, T: 1}` from the spec's Scorer example. -/
def scoreTableEx : Char → Option Nat := fun c =>
  if c = 'A' then some 1 else if c = 'C' then some 3 else
  if c = 'T' then some 1 else none

/-- A score table knowing only `A` (letter `B` is missing). -/
def scoreTableA1 : Char → Option Nat := fun c =>
  if c = 'A' then some 1 else none

/-- The same table with `B` explicitly worth zero points. -/
def scoreTableA1B0 : Char → Option Nat := fun c =>
  if c = 'A' then some 1 else if c = 'B' then some 0 else none

/-- An empty accentuation table. -/
def accTableNone : Char → Option Char := fun _ => none

/-- The score table `{A: 1, B: 2}`. -/
def scoreTableAB : Char → Option Nat := fun c =>
  if c = 'A' then some 1 else if c = 'B' then some 2 else none

/-! ## Matcher lemmas -/

theorem matchWordGo_nil_word :
    ∀ (L u : List Char), matchWordGo [] L u = ⟨false, []⟩
  | [], _ => rfl
  | l :: rest, u => by
    have h : l ∉ ([] : List Char) := List.not_mem_nil l
    simp only [matchWordGo, if_neg h]
    exact matchWordGo_nil_word rest (u ++ [l])

theorem matchWordGo_check_iff :
    ∀ (L w u : List Char), w ≠ [] →
      ((matchWordGo w L u).check = true ↔ ∀ c, w.count c ≤ L.count c) := by
  intro L
  induction L with
  | nil =>
    intro w u hw
    constructor
    · intro h
      simp [matchWordGo] at h
    · intro h
      cases w with
      | nil => exact absurd rfl hw
      | cons d t =>
        have hd := h d
        simp [List.count_cons] at hd
  | cons l rest ih =>
    intro w u hw
    by_cases hmem : l ∈ w
    · by_cases hempty : w.erase l = []
      · have hlen : w.length = 1 := by
          have h1 := List.length_erase_of_mem hmem
          rw [hempty] at h1
          have h2 : 0 < w.length := List.length_pos.mpr hw
          simp at h1
          omega
        obtain ⟨a, rfl⟩ := List.length_eq_one.mp hlen
        have ha : l = a := by simpa using hmem
        subst ha
        have hgo : matchWordGo [l] (l :: rest) u = ⟨true, u ++ rest⟩ := by
          simp [matchWordGo, hmem, hempty]
        rw [hgo]
        simp only [true_iff]
        intro c
        by_cases hc : l = c
        · subst hc
          simp [List.count_cons]
        · simp [List.count_cons, hc]
      · have hgo : matchWordGo w (l :: rest) u = matchWordGo (w.erase l) rest u := by
          simp [matchWordGo, hmem, hempty]
        rw [hgo, ih (w.erase l) u hempty]
        have hpos : 0 < w.count l := List.count_pos_iff.mpr hmem
        constructor
        · intro h c
          by_cases hc : c = l
          · subst hc
            have h1 := h c
            rw [List.count_erase_self] at h1
            simp [List.count_cons]
            omega
          · have h1 := h c
            rw [List.count_erase_of_ne hc] at h1
            simp [List.count_cons, Ne.symm hc]
            exact h1
        · intro h c
          by_cases hc : c = l
          · subst hc
            have h1 := h c
            simp [List.count_cons] at h1
            rw [List.count_erase_self]
            omega
          · have h1 := h c
            simp [List.count_cons, Ne.symm hc] at h1
            rw [List.count_erase_of_ne hc]
            exact h1
    · have hgo : matchWordGo w (l :: rest) u = matchWordGo w rest (u ++ [l]) := by
        simp [matchWordGo, hmem]
      rw [hgo, ih w (u ++ [l]) hw]
      constructor
      · intro h c
        have h1 := h c
        by_cases hc : l = c
        · simp [List.count_cons, hc]
          omega
        · simp [List.count_cons, hc]
          exact h1
      · intro h c
        by_cases hc : c = l
        · subst hc
          rw [List.count_eq_zero_of_not_mem hmem]
          exact Nat.zero_le _
        · have h1 := h c
          simp [List.count_cons, Ne.symm hc] at h1
          exact h1

theorem match_spec_agree :
    ∀ (input word u : List Char),
      ((matchWordGo word input u).check, (matchWordGo word input u).unused)
        = matchSpecGo (↑word) input u := by
  intro input
  induction input with
  | nil =>
    intro word u
    rfl
  | cons l rest ih =>
    intro word u
    by_cases hmem : l ∈ word
    · by_cases hempty : word.erase l = []
      · simp [matchWordGo, matchSpecGo, hmem, hempty, Multiset.coe_erase,
          Multiset.coe_eq_zero]
      · simp [matchWordGo, matchSpecGo, hmem, hempty, Multiset.coe_erase,
          Multiset.coe_eq_zero, ih]
    · simp [matchWordGo, matchSpecGo, hmem, ih]

/-! ## Claim theorems: matcher -/

/-- C9: matching an empty candidate word against any input-letter sequence
returns `matched = false` (the success check runs only after an input
letter is found in the candidate), even though the empty multiset is
contained in every input. -/
theorem c9_empty_word_never_matches (L : List Char) :
    (matchWord [] L).check = false ∧
      ∀ c : Char, ([] : List Char).count c ≤ L.count c := by
  constructor
  · rw [matchWord, matchWordGo_nil_word]
  · intro c
    simp

/-- C1 counterexample: as stated, the claim fails for a dictionary word
whose canonical form is empty — with `w = []` and `L = "A"` the multiset
containment holds vacuously, yet `match` reports `matched = false`. -/
theorem c1_counterexample :
    ¬ (((matchWord [] ['A']).check = true) ↔
        ∀ c : Char, ([] : List Char).count c ≤ (['A'] : List Char).count c) := by
  intro h
  have h2 := h.mpr (fun c => by simp)
  rw [matchWord, matchWordGo_nil_word] at h2
  exact Bool.false_ne_true h2

/-- C1 (amended: the candidate word must be non-empty): for every non-empty
canonical word `w` and input letters `L`, `match(w, L).matched` is true iff
every character of `w`, counted with multiplicity, occurs in `L` with at
least the same multiplicity. -/
theorem c1_match_iff_containment (w L : List Char) (hw : w ≠ []) :
    (matchWord w L).check = true ↔ ∀ c, w.count c ≤ L.count c :=
  matchWordGo_check_iff L w [] hw

/-- C1 witness: the amended theorem applied at `w = "CAT"`, `L = "TACO"`. -/
theorem c1_witness :
    (['C', 'A', 'T'] : List Char) ≠ [] ∧
      ((matchWord ['C', 'A', 'T'] ['T', 'A', 'C', 'O']).check = true ↔
        ∀ c, (['C', 'A', 'T'] : List Char).count c
          ≤ (['T', 'A', 'C', 'O'] : List Char).count c) :=
  ⟨by decide, c1_match_iff_containment _ _ (by decide)⟩

/-- C4: on success, the unused letters are exactly those computed by the
spec's multiset scan — input letters scanned before the exhaustion point
that were not in the remaining candidate multiset, followed by all input
letters after the exhaustion point, in their original relative order
(`matchSpecGo`, modelled from the spec §4.2); and concretely,
`match("CAT", "TACO")` matches with unused letters `["O"]`. -/
theorem c4_unused_letters (word input : List Char) :
    ((matchWord word input).check, (matchWord word input).unused)
        = matchSpecGo (↑word) input [] ∧
      matchWord ['C', 'A', 'T'] ['T', 'A', 'C', 'O'] = ⟨true, ['O']⟩ :=
  ⟨match_spec_agree input word [], by decide⟩

/-! ## Scorer lemmas -/

/-- When every letter is in the table, the scoring loop computes the sum of
the 1-based-position contributions, doubling the letter whose position
equals the bonus. -/
theorem scoreWordGo_eq_sum (tbl : Char → Option Nat) (b : Nat) :
    ∀ (w : List Char) (i : Nat), (∀ c ∈ w, (tbl c).isSome) →
      scoreWordGo tbl (some (b : Int)) w i
        = some (((w.enumFrom (i + 1)).map
            (fun p => (if p.1 = b then 2 else 1) * ((tbl p.2).getD 0))).sum) := by
  intro w
  induction w with
  | nil =>
    intro i _
    simp [scoreWordGo, List.enumFrom]
  | cons c cs ih =>
    intro i h
    have hc : (tbl c).isSome := h c (List.mem_cons_self c cs)
    obtain ⟨v, hv⟩ := Option.isSome_iff_exists.mp hc
    have hrest := ih (i + 1) (fun d hd => h d (List.mem_cons_of_mem c hd))
    simp only [scoreWordGo, hv, hrest, List.enumFrom, List.map_cons, List.sum_cons]
    have hcond : (some (b : Int) = some ((i : Int) + 1)) ↔ (i + 1 = b) := by
      constructor
      · intro hbe
        have : (b : Int) = (i : Int) + 1 := Option.some.inj hbe
        omega
      · intro hbe
        subst hbe
        simp
    by_cases hb : i + 1 = b
    · rw [if_pos (hcond.mpr hb), if_pos hb]
      simp
    · rw [if_neg (fun hx => hb (hcond.mp hx)), if_neg hb]
      simp

/-- When the bonus position is outside the 1-based position range
`i+1 … i+length`, no term is doubled and the positional sum collapses to
the plain sum of the letter values. -/
theorem enumFrom_sum_no_bonus (tbl : Char → Option Nat) (b : Nat) :
    ∀ (w : List Char) (i : Nat), (b < i + 1 ∨ i + w.length < b) →
      ((w.enumFrom (i + 1)).map
          (fun p => (if p.1 = b then 2 else 1) * ((tbl p.2).getD 0))).sum
        = (w.map (fun c => (tbl c).getD 0)).sum := by
  intro w
  induction w with
  | nil =>
    intro i _
    simp [List.enumFrom]
  | cons c cs ih =>
    intro i hb
    have hb1 : i + 1 ≠ b := by
      simp only [List.length_cons] at hb
      omega
    have hrec := ih (i + 1) (by simp only [List.length_cons] at hb; omega)
    simp only [List.enumFrom, List.map_cons, List.sum_cons, if_neg hb1, hrec,
      Nat.one_mul]

/-- Bonus position `0` never matches a 1-based letter position, so scoring
with `some 0` is the same loop as scoring with a disabled (`NaN`) bonus. -/
theorem scoreWordGo_zero_eq_none (tbl : Char → Option Nat) :
    ∀ (w : List Char) (i : Nat),
      scoreWordGo tbl (some 0) w i = scoreWordGo tbl none w i := by
  intro w
  induction w with
  | nil =>
    intro i
    rfl
  | cons c cs ih =>
    intro i
    have h0 : ¬ ((some 0 : Option Int) = some ((i : Int) + 1)) := by
      intro hx
      have : (0 : Int) = (i : Int) + 1 := Option.some.inj hx
      omega
    have hn : ¬ ((none : Option Int) = some ((i : Int) + 1)) := by
      simp
    simp only [scoreWordGo, ih (i + 1), if_neg h0, if_neg hn]

/-! ## Claim theorems: scorer -/

/-- C3: for a word whose letters are all in the score table and an enabled
bonus position `b`, the score is the sum over the 1-based positions of the
table values, with the contribution at position `b` doubled; when `b`
exceeds the word length the result is the plain (un-doubled) sum, silently.
-/
theorem c3_score_formula (tbl : Char → Option Nat) (w : List Char) (b : Nat)
    (h : ∀ c ∈ w, (tbl c).isSome) :
    scoreWord tbl (some (b : Int)) w
        = some (((w.enumFrom 1).map
            (fun p => (if p.1 = b then 2 else 1) * ((tbl p.2).getD 0))).sum) ∧
      (w.length < b →
        scoreWord tbl (some (b : Int)) w
          = some ((w.map (fun c => (tbl c).getD 0)).sum)) := by
  constructor
  · exact scoreWordGo_eq_sum tbl b w 0 h
  · intro hlen
    rw [scoreWord, scoreWordGo_eq_sum tbl b w 0 h,
      enumFrom_sum_no_bonus tbl b w 0 (Or.inr (by omega))]

/-- C3 witness: the theorem applied to the spec's example — table
`{A: 1, C: 3, T: 1}`, word `"CAT"`, bonus position `2` — where the score
evaluates to `6`. -/
theorem c3_witness :
    (∀ c ∈ (['C', 'A', 'T'] : List Char), (scoreTableEx c).isSome) ∧
      (scoreWord scoreTableEx (some ((2 : Nat) : Int)) ['C', 'A', 'T']
          = some ((((['C', 'A', 'T'] : List Char).enumFrom 1).map
              (fun p => (if p.1 = 2 then 2 else 1) * ((scoreTableEx p.2).getD 0))).sum) ∧
        ((['C', 'A', 'T'] : List Char).length < 2 →
          scoreWord scoreTableEx (some ((2 : Nat) : Int)) ['C', 'A', 'T']
            = some (((['C', 'A', 'T'] : List Char).map
                (fun c => (scoreTableEx c).getD 0)).sum))) ∧
      scoreWord scoreTableEx (some 2) ['C', 'A', 'T'] = some 6 :=
  ⟨by decide, c3_score_formula scoreTableEx ['C', 'A', 'T'] 2 (by decide), by decide⟩

/-- C7: evaluation at the failing input.  With the table knowing only `A`,
scoring the matched word `"AB"` silently yields the poisoned JS `NaN`
score (modelled `none`) — no fatal configuration error is raised, and the
result also differs from treating the unknown letter as zero (the same
word under the table with `B ↦ 0` scores `1`). -/
theorem c7_missing_letter_score :
    scoreWord scoreTableA1 (some 0) ['A', 'B'] = none ∧
      scoreWord scoreTableA1B0 (some 0) ['A', 'B'] = some 1 := by
  constructor
  · decide
  · decide

/-- C10: the bonus-position text `"0"` is accepted as valid, and with bonus
position `0` scoring behaves exactly as with no (disabled) bonus: every
word's score is the plain un-doubled sum of its letter values. -/
theorem c10_zero_bonus :
    checkBonusPosition ['0'] = true ∧
      (∀ (tbl : Char → Option Nat) (w : List Char),
        scoreWord tbl (some 0) w = scoreWord tbl none w) ∧
      (∀ (tbl : Char → Option Nat) (w : List Char),
        (∀ c ∈ w, (tbl c).isSome) →
          scoreWord tbl (some 0) w
            = some ((w.map (fun c => (tbl c).getD 0)).sum)) := by
  refine ⟨by decide, ?_, ?_⟩
  · intro tbl w
    exact scoreWordGo_zero_eq_none tbl w 0
  · intro tbl w h
    have h0 := scoreWordGo_eq_sum tbl 0 w 0 h
    rw [scoreWord]
    have : (some ((0 : Nat) : Int) : Option Int) = some 0 := by simp
    rw [← this, h0, enumFrom_sum_no_bonus tbl 0 w 0 (Or.inl (by omega))]

/-- C10 witness: the third component applied to the table
`{A: 1, C: 3, T: 1}` and the word `"CAT"`. -/
theorem c10_witness :
    scoreWord scoreTableEx (some 0) ['C', 'A', 'T']
      = some (((['C', 'A', 'T'] : List Char).map
          (fun c => (scoreTableEx c).getD 0)).sum) :=
  c10_zero_bonus.2.2 scoreTableEx ['C', 'A', 'T'] (by decide)

/-! ## Bonus-validation lemmas -/

theorem takeWhile_eq_self_of_all {p : Char → Bool} :
    ∀ t : List Char, (∀ c ∈ t, p c = true) → t.takeWhile p = t
  | [], _ => rfl
  | c :: rest, h => by
    have hc := h c (List.mem_cons_self c rest)
    simp [List.takeWhile_cons, hc,
      takeWhile_eq_self_of_all rest (fun d hd => h d (List.mem_cons_of_mem c hd))]

theorem dropWhile_eq_nil_of_all {p : Char → Bool} :
    ∀ t : List Char, (∀ c ∈ t, p c = true) → t.dropWhile p = []
  | [], _ => rfl
  | c :: rest, h => by
    have hc := h c (List.mem_cons_self c rest)
    simp [List.dropWhile_cons, hc,
      dropWhile_eq_nil_of_all rest (fun d hd => h d (List.mem_cons_of_mem c hd))]

theorem dropWhile_eq_self_of_all_not {p : Char → Bool} :
    ∀ t : List Char, (∀ c ∈ t, p c = false) → t.dropWhile p = t
  | [], _ => rfl
  | c :: rest, h => by
    have hc := h c (List.mem_cons_self c rest)
    simp [List.dropWhile_cons, hc]

theorem isJsSpace_eq_false_of_digit {c : Char} (h : isDecDigit c = true) :
    isJsSpace c = false := by
  simp only [isDecDigit, Bool.and_eq_true, decide_eq_true_eq] at h
  obtain ⟨h0, h9⟩ := h
  have h1 : c ≠ ' ' := by intro he; rw [he] at h0; exact absurd h0 (by decide)
  have h2 : c ≠ '\t' := by intro he; rw [he] at h0; exact absurd h0 (by decide)
  have h3 : c ≠ '\n' := by intro he; rw [he] at h0; exact absurd h0 (by decide)
  have h4 : c ≠ '\x0b' := by intro he; rw [he] at h0; exact absurd h0 (by decide)
  have h5 : c ≠ '\x0c' := by intro he; rw [he] at h0; exact absurd h0 (by decide)
  have h6 : c ≠ '\r' := by intro he; rw [he] at h0; exact absurd h0 (by decide)
  have h7 : c ≠ '\u00a0' := by intro he; rw [he] at h9; exact absurd h9 (by decide)
  simp [isJsSpace, h1, h2, h3, h4, h5, h6, h7]

theorem head_not_of_digit {c x : Char} (hc : isDecDigit c = true)
    (hx : isDecDigit x = false) : c ≠ x := by
  intro he
  rw [he, hx] at hc
  exact Bool.noConfusion hc

theorem jsTrim_of_digits {t : List Char} (h : ∀ c ∈ t, isDecDigit c = true) :
    jsTrim t = t := by
  have hns : ∀ c ∈ t, isJsSpace c = false :=
    fun c hc => isJsSpace_eq_false_of_digit (h c hc)
  rw [jsTrim, dropWhile_eq_self_of_all_not t hns,
    dropWhile_eq_self_of_all_not t.reverse
      (fun c hc => hns c (List.mem_reverse.mp hc)),
    List.reverse_reverse]

theorem unsignedDecimalOk_of_digits {t : List Char} (hne : t ≠ [])
    (h : ∀ c ∈ t, isDecDigit c = true) : unsignedDecimalOk t = true := by
  have ht : t.takeWhile isDecDigit = t := takeWhile_eq_self_of_all t h
  have hd : t.dropWhile isDecDigit = [] := dropWhile_eq_nil_of_all t h
  cases t with
  | nil => exact absurd rfl hne
  | cons c rest =>
    simp only [unsignedDecimalOk, ht, hd]
    simp

theorem jsNumericOk_of_digits {t : List Char} (hne : t ≠ [])
    (h : ∀ c ∈ t, isDecDigit c = true) : jsNumericOk t = true := by
  have hu := unsignedDecimalOk_of_digits hne h
  cases t with
  | nil => exact absurd rfl hne
  | cons c rest =>
    have hc := h c (List.mem_cons_self c rest)
    have hplus : c ≠ '+' := head_not_of_digit hc (by decide)
    have hminus : c ≠ '-' := head_not_of_digit hc (by decide)
    have hinf : c ≠ 'I' := head_not_of_digit hc (by decide)
    have hbody : ¬ (c :: rest = ['I', 'n', 'f', 'i', 'n', 'i', 't', 'y']) := by
      intro he
      injection he with he1 _
      exact hinf he1
    cases rest with
    | nil =>
      simp only [jsNumericOk]
      simp [hplus, hminus, hbody, hu]
    | cons x ds =>
      have hx := h x (List.mem_cons_of_mem c (List.mem_cons_self x ds))
      have hxx : x ≠ 'x' := head_not_of_digit hx (by decide)
      have hxX : x ≠ 'X' := head_not_of_digit hx (by decide)
      have hxo : x ≠ 'o' := head_not_of_digit hx (by decide)
      have hxO : x ≠ 'O' := head_not_of_digit hx (by decide)
      have hxb : x ≠ 'b' := head_not_of_digit hx (by decide)
      have hxB : x ≠ 'B' := head_not_of_digit hx (by decide)
      simp only [jsNumericOk]
      simp [hplus, hminus, hbody, hu, hxx, hxX, hxo, hxO, hxb, hxB]

theorem parseIntMag_of_digits {t : List Char} (hne : t ≠ [])
    (h : ∀ c ∈ t, isDecDigit c = true) : parseIntMag t = some (decValue t) := by
  have ht : t.takeWhile isDecDigit = t := takeWhile_eq_self_of_all t h
  cases t with
  | nil => exact absurd rfl hne
  | cons c rest =>
    cases rest with
    | nil =>
      simp [parseIntMag, ht]
    | cons x ds =>
      have hx := h x (List.mem_cons_of_mem c (List.mem_cons_self x ds))
      have hxx : x ≠ 'x' := head_not_of_digit hx (by decide)
      have hxX : x ≠ 'X' := head_not_of_digit hx (by decide)
      simp [parseIntMag, ht, hxx, hxX]

theorem jsParseInt_of_digits {t : List Char} (hne : t ≠ [])
    (h : ∀ c ∈ t, isDecDigit c = true) :
    jsParseInt t = some ((decValue t : Nat) : Int) := by
  have hds : t.dropWhile isJsSpace = t :=
    dropWhile_eq_self_of_all_not t
      (fun c hc => isJsSpace_eq_false_of_digit (h c hc))
  cases t with
  | nil => exact absurd rfl hne
  | cons c rest =>
    have hc := h c (List.mem_cons_self c rest)
    have hplus : c ≠ '+' := head_not_of_digit hc (by decide)
    have hminus : c ≠ '-' := head_not_of_digit hc (by decide)
    simp only [jsParseInt, hds]
    simp [hplus, hminus, parseIntMag_of_digits hne h]

theorem jsParseInt_neg_digits {ds : List Char} (hne : ds ≠ [])
    (h : ∀ c ∈ ds, isDecDigit c = true) :
    jsParseInt ('-' :: ds) = some (-((decValue ds : Nat) : Int)) := by
  have hsp : isJsSpace '-' = false := by decide
  have hds : ('-' :: ds).dropWhile isJsSpace = '-' :: ds := by
    simp [List.dropWhile_cons, hsp]
  simp only [jsParseInt, hds]
  simp [parseIntMag_of_digits hne h]

/-! ## Claim theorems: bonus validation -/

/-- C6 counterexample: the text `"2.5"` is accepted by
`checkBonusPosition` although, after whitespace removal, it does not parse
as a non-negative integer (it is not a digit string). -/
theorem c6_counterexample :
    checkBonusPosition ['2', '.', '5'] = true ∧
      ¬ (removeWhitespaces ['2', '.', '5'] ≠ [] ∧
          (removeWhitespaces ['2', '.', '5']).all isDecDigit = true) := by
  constructor
  · decide
  · decide

/-- C6 (amended): if the bonus text, after whitespace removal, is a
non-empty digit string it is accepted; empty, negative-integer, and
letters-only texts are rejected (a normal boolean outcome, not an
exception); but the converse of the acceptance direction fails — some
non-integer numeric texts, such as `"2.5"`, are also accepted. -/
theorem c6_accepts_nonneg_integers :
    (∀ s : List Char, removeWhitespaces s ≠ [] →
        (removeWhitespaces s).all isDecDigit = true →
        checkBonusPosition s = true) ∧
      (∀ (s ds : List Char), removeWhitespaces s = '-' :: ds → ds ≠ [] →
        ds.all isDecDigit = true → 0 < decValue ds →
        checkBonusPosition s = false) ∧
      checkBonusPosition [] = false ∧
      checkBonusPosition ['a', 'b', 'c'] = false ∧
      checkBonusPosition ['2', '.', '5'] = true := by
  refine ⟨?_, ?_, by decide, by decide, by decide⟩
  · intro s hne hdig
    have hall : ∀ c ∈ removeWhitespaces s, isDecDigit c = true :=
      fun c hc => List.all_eq_true.mp hdig c hc
    have hnan : jsIsNaN (removeWhitespaces s) = false := by
      rw [jsIsNaN, jsTrim_of_digits hall,
        jsNumericOk_of_digits hne hall]
      rfl
    rw [checkBonusPosition]
    simp only [hnan, jsParseInt_of_digits hne hall]
    simp
  · intro s ds hminus hne hdig hpos
    have hall : ∀ c ∈ ds, isDecDigit c = true :=
      fun c hc => List.all_eq_true.mp hdig c hc
    rw [checkBonusPosition]
    simp only [hminus, jsParseInt_neg_digits hne hall]
    have : ¬ ((0 : Int) ≤ -((decValue ds : Nat) : Int)) := by
      omega
    simp [this]

/-- C6 witness: the amended theorem's acceptance direction at `"42"` and
its negative-rejection direction at `"-3"`. -/
theorem c6_witness :
    checkBonusPosition ['4', '2'] = true ∧
      checkBonusPosition ['-', '3'] = false :=
  ⟨c6_accepts_nonneg_integers.1 ['4', '2'] (by decide) (by decide),
    c6_accepts_nonneg_integers.2.1 ['-', '3'] ['3'] (by decide) (by decide)
      (by decide) (by decide)⟩

/-! ## Ranker lemmas -/

theorem scoreLe_trans :
    ∀ a b c : ScoredCand, scoreLe a b → scoreLe b c → scoreLe a c := by
  intro a b c hab hbc
  simp only [scoreLe, decide_eq_true_eq] at hab hbc ⊢
  omega

theorem scoreLe_total : ∀ a b : ScoredCand, scoreLe a b || scoreLe b a := by
  intro a b
  simp only [scoreLe, Bool.or_eq_true, decide_eq_true_eq]
  omega

theorem lengthLe_trans :
    ∀ a b c : ScoredCand, lengthLe a b → lengthLe b c → lengthLe a c := by
  intro a b c hab hbc
  simp only [lengthLe, decide_eq_true_eq] at hab hbc ⊢
  omega

theorem lengthLe_total : ∀ a b : ScoredCand, lengthLe a b || lengthLe b a := by
  intro a b
  simp only [lengthLe, Bool.or_eq_true, decide_eq_true_eq]
  omega

theorem lexLe_refl : ∀ a : List Char, lexLe a a = true
  | [] => rfl
  | x :: xs => by simp [lexLe, lexLe_refl xs]

theorem lexLe_total : ∀ a b : List Char, (lexLe a b || lexLe b a) = true
  | [], _ => by simp [lexLe]
  | _ :: _, [] => by simp [lexLe]
  | x :: xs, y :: ys => by
    by_cases hxy : x = y
    · subst hxy
      simp [lexLe, lexLe_total xs ys]
    · rcases lt_or_gt_of_ne hxy with h | h
      · simp [lexLe, hxy, Ne.symm hxy, h]
      · simp [lexLe, hxy, Ne.symm hxy, h]

theorem lexLe_trans :
    ∀ a b c : List Char, lexLe a b = true → lexLe b c = true → lexLe a c = true
  | [], _, _, _, _ => by simp [lexLe]
  | _ :: _, [], _, hab, _ => by simp [lexLe] at hab
  | _ :: _, _ :: _, [], _, hbc => by simp [lexLe] at hbc
  | x :: xs, y :: ys, z :: zs, hab, hbc => by
    by_cases hxy : x = y
    · subst hxy
      by_cases hyz : x = z
      · subst hyz
        simp only [lexLe, if_pos rfl] at hab hbc ⊢
        exact lexLe_trans xs ys zs hab hbc
      · simp only [lexLe, if_pos rfl] at hab
        simp only [lexLe, if_neg hyz, decide_eq_true_eq] at hbc ⊢
        exact hbc
    · by_cases hyz : y = z
      · subst hyz
        simp only [lexLe, if_neg hxy, decide_eq_true_eq] at hab ⊢
        exact hab
      · simp only [lexLe, if_neg hxy, if_neg hyz, decide_eq_true_eq] at hab hbc
        have hxz : x < z := lt_trans hab hbc
        simp only [lexLe, if_neg (ne_of_lt hxz), decide_eq_true_eq]
        exact hxz

theorem lexLe_antisymm :
    ∀ a b : List Char, lexLe a b = true → lexLe b a = true → a = b
  | [], [], _, _ => rfl
  | [], _ :: _, _, hba => by simp [lexLe] at hba
  | _ :: _, [], hab, _ => by simp [lexLe] at hab
  | x :: xs, y :: ys, hab, hba => by
    by_cases hxy : x = y
    · subst hxy
      simp only [lexLe, if_pos rfl] at hab hba
      rw [lexLe_antisymm xs ys hab hba]
    · simp only [lexLe, if_neg hxy, if_neg (Ne.symm hxy),
        decide_eq_true_eq] at hab hba
      exact absurd hba (not_lt.mpr (le_of_lt hab))

theorem alphaLe_trans :
    ∀ a b c : ScoredCand, alphaLe a b → alphaLe b c → alphaLe a c :=
  fun a b c hab hbc => lexLe_trans a.word b.word c.word hab hbc

theorem alphaLe_total : ∀ a b : ScoredCand, alphaLe a b || alphaLe b a :=
  fun a b => lexLe_total a.word b.word

/-- In a list sorted by descending score and bounded above by `s`, every
element of score `s` lies in the prefix of elements of score `s`. -/
theorem mem_takeWhile_score (s : Nat) :
    ∀ t : List ScoredCand,
      t.Pairwise (fun a b => b.score ≤ a.score) →
      (∀ x ∈ t, x.score ≤ s) → ∀ c ∈ t, c.score = s →
      c ∈ t.takeWhile (fun x => x.score = s)
  | [], _, _, c, hc, _ => absurd hc (List.not_mem_nil c)
  | d :: t', hp, hbound, c, hc, hcs => by
    rw [List.pairwise_cons] at hp
    by_cases hd : d.score = s
    · rw [List.takeWhile_cons, if_pos (by simp [hd])]
      rcases List.mem_cons.mp hc with h | h
      · rw [h]
        exact List.mem_cons_self d _
      · exact List.mem_cons_of_mem d
          (mem_takeWhile_score s t' hp.2
            (fun x hx => hbound x (List.mem_cons_of_mem d hx)) c h hcs)
    · rcases List.mem_cons.mp hc with h | h
      · exact absurd (h ▸ hcs) hd
      · have h2 : c.score ≤ d.score := hp.1 c h
        have h3 : d.score ≤ s := hbound d (List.mem_cons_self d t')
        exact absurd (by omega : d.score = s) hd

/-- In a list sorted by ascending word length and bounded below by `n`,
every element of word length `n` lies in the prefix of elements of word
length at most `n`. -/
theorem mem_takeWhile_length (n : Nat) :
    ∀ t : List ScoredCand,
      t.Pairwise (fun a b => a.word.length ≤ b.word.length) →
      (∀ x ∈ t, n ≤ x.word.length) → ∀ c ∈ t, c.word.length = n →
      c ∈ t.takeWhile (fun x => x.word.length ≤ n)
  | [], _, _, c, hc, _ => absurd hc (List.not_mem_nil c)
  | d :: t', hp, hbound, c, hc, hcn => by
    rw [List.pairwise_cons] at hp
    by_cases hd : d.word.length ≤ n
    · rw [List.takeWhile_cons, if_pos (by simp [hd])]
      rcases List.mem_cons.mp hc with h | h
      · rw [h]
        exact List.mem_cons_self d _
      · exact List.mem_cons_of_mem d
          (mem_takeWhile_length n t' hp.2
            (fun x hx => hbound x (List.mem_cons_of_mem d hx)) c h hcn)
    · rcases List.mem_cons.mp hc with h | h
      · exact absurd (le_of_eq (h ▸ hcn)) hd
      · have h2 : d.word.length ≤ c.word.length := hp.1 c h
        exact absurd (by omega : d.word.length ≤ n) hd

/-- `rankWords` with its let-bindings expanded. -/
theorem rankWords_eq (l : List ScoredCand) :
    rankWords l =
      if 1 < (removeLowerScores (l.mergeSort scoreLe)).length then
        if 1 < (removeHigherLengths
            ((removeLowerScores (l.mergeSort scoreLe)).mergeSort
              lengthLe)).length then
          (removeHigherLengths
            ((removeLowerScores (l.mergeSort scoreLe)).mergeSort
              lengthLe)).mergeSort alphaLe
        else
          removeHigherLengths
            ((removeLowerScores (l.mergeSort scoreLe)).mergeSort lengthLe)
      else removeLowerScores (l.mergeSort scoreLe) := rfl

/-- Characterization of the ranking winner: it is a candidate of the list,
of maximal score, of minimal word length among the maximal-score
candidates, and of lexicographically least word among those. -/
theorem rank_spec (l : List ScoredCand) (hne : l ≠ []) :
    ∃ w, rankWinner l = some w ∧ w ∈ l ∧
      (∀ c ∈ l, c.score ≤ w.score) ∧
      (∀ c ∈ l, c.score = w.score → w.word.length ≤ c.word.length) ∧
      (∀ c ∈ l, c.score = w.score → c.word.length = w.word.length →
        lexLe w.word c.word = true) := by
  have hperm0 : List.Perm (l.mergeSort scoreLe) l := List.mergeSort_perm l scoreLe
  have hp0 : (l.mergeSort scoreLe).Pairwise (fun a b => b.score ≤ a.score) :=
    (List.sorted_mergeSort scoreLe_trans scoreLe_total l).imp
      (fun hab => by simpa [scoreLe] using hab)
  have hne0 : l.mergeSort scoreLe ≠ [] := by
    intro he
    apply hne
    have hlen := hperm0.length_eq
    rw [he] at hlen
    exact List.eq_nil_of_length_eq_zero hlen.symm
  obtain ⟨h, t, ht⟩ : ∃ h t, l.mergeSort scoreLe = h :: t := by
    cases hcase : l.mergeSort scoreLe with
    | nil => exact absurd hcase hne0
    | cons a b => exact ⟨a, b, rfl⟩
  have hl1 : removeLowerScores (l.mergeSort scoreLe)
      = h :: t.takeWhile (fun x => x.score = h.score) := by
    rw [ht, removeLowerScores]
  have hpt : t.Pairwise (fun a b => b.score ≤ a.score) ∧
      ∀ x ∈ t, x.score ≤ h.score := by
    have := ht ▸ hp0
    rw [List.pairwise_cons] at this
    exact ⟨this.2, fun x hx => this.1 x hx⟩
  have hmax : ∀ c ∈ l, c.score ≤ h.score := by
    intro c hc
    have hc0 : c ∈ h :: t := by
      rw [← ht]
      exact hperm0.mem_iff.mpr hc
    rcases List.mem_cons.mp hc0 with h1 | h1
    · rw [h1]
    · exact hpt.2 c h1
  have hF2 : ∀ c ∈ removeLowerScores (l.mergeSort scoreLe),
      c.score = h.score := by
    intro c hc
    rw [hl1] at hc
    rcases List.mem_cons.mp hc with h1 | h1
    · rw [h1]
    · simpa using List.mem_takeWhile_imp h1
  have hF4 : ∀ c ∈ removeLowerScores (l.mergeSort scoreLe), c ∈ l := by
    intro c hc
    rw [hl1] at hc
    apply hperm0.mem_iff.mp
    rw [ht]
    rcases List.mem_cons.mp hc with h1 | h1
    · rw [h1]
      exact List.mem_cons_self _ _
    · exact List.mem_cons_of_mem _ ((List.takeWhile_sublist _).subset h1)
  have hF3 : ∀ c ∈ l, c.score = h.score →
      c ∈ removeLowerScores (l.mergeSort scoreLe) := by
    intro c hc hcs
    rw [hl1]
    have hc0 : c ∈ h :: t := by
      rw [← ht]
      exact hperm0.mem_iff.mpr hc
    rcases List.mem_cons.mp hc0 with h1 | h1
    · rw [h1]
      exact List.mem_cons_self _ _
    · exact List.mem_cons_of_mem _
        (mem_takeWhile_score h.score t hpt.1 hpt.2 c h1 hcs)
  by_cases hlen1 : 1 < (removeLowerScores (l.mergeSort scoreLe)).length
  · -- more than one top-score candidate: length stage runs
    have hperm2 : List.Perm
        ((removeLowerScores (l.mergeSort scoreLe)).mergeSort lengthLe)
        (removeLowerScores (l.mergeSort scoreLe)) :=
      List.mergeSort_perm _ lengthLe
    have hp2 : ((removeLowerScores (l.mergeSort scoreLe)).mergeSort
        lengthLe).Pairwise (fun a b => a.word.length ≤ b.word.length) :=
      (List.sorted_mergeSort lengthLe_trans lengthLe_total _).imp
        (fun hab => by simpa [lengthLe] using hab)
    have hne2 : (removeLowerScores (l.mergeSort scoreLe)).mergeSort lengthLe
        ≠ [] := by
      intro he
      have hlen := hperm2.length_eq
      rw [he] at hlen
      simp at hlen
      omega
    obtain ⟨h2, t2, ht2⟩ : ∃ h2 t2,
        (removeLowerScores (l.mergeSort scoreLe)).mergeSort lengthLe
          = h2 :: t2 := by
      cases hcase : (removeLowerScores (l.mergeSort scoreLe)).mergeSort
          lengthLe with
      | nil => exact absurd hcase hne2
      | cons a b => exact ⟨a, b, rfl⟩
    have hl2 : removeHigherLengths
        ((removeLowerScores (l.mergeSort scoreLe)).mergeSort lengthLe)
        = h2 :: t2.takeWhile (fun x => x.word.length ≤ h2.word.length) := by
      rw [ht2, removeHigherLengths]
    have hpt2 : t2.Pairwise (fun a b => a.word.length ≤ b.word.length) ∧
        ∀ x ∈ t2, h2.word.length ≤ x.word.length := by
      have := ht2 ▸ hp2
      rw [List.pairwise_cons] at this
      exact ⟨this.2, fun x hx => this.1 x hx⟩
    have hG1 : ∀ c ∈ removeLowerScores (l.mergeSort scoreLe),
        h2.word.length ≤ c.word.length := by
      intro c hc
      have hc0 : c ∈ h2 :: t2 := by
        rw [← ht2]
        exact hperm2.mem_iff.mpr hc
      rcases List.mem_cons.mp hc0 with h1 | h1
      · rw [h1]
      · exact hpt2.2 c h1
    have hh2mem : h2 ∈ removeLowerScores (l.mergeSort scoreLe) := by
      apply hperm2.mem_iff.mp
      rw [ht2]
      exact List.mem_cons_self _ _
    have hG4 : ∀ c ∈ removeHigherLengths
        ((removeLowerScores (l.mergeSort scoreLe)).mergeSort lengthLe),
        c ∈ removeLowerScores (l.mergeSort scoreLe) := by
      intro c hc
      rw [hl2] at hc
      apply hperm2.mem_iff.mp
      rw [ht2]
      rcases List.mem_cons.mp hc with h1 | h1
      · rw [h1]
        exact List.mem_cons_self _ _
      · exact List.mem_cons_of_mem _ ((List.takeWhile_sublist _).subset h1)
    have hG2 : ∀ c ∈ removeHigherLengths
        ((removeLowerScores (l.mergeSort scoreLe)).mergeSort lengthLe),
        c.word.length = h2.word.length := by
      intro c hc
      have hup : c.word.length ≤ h2.word.length := by
        rw [hl2] at hc
        rcases List.mem_cons.mp hc with h1 | h1
        · rw [h1]
        · simpa using List.mem_takeWhile_imp h1
      have hlo : h2.word.length ≤ c.word.length := hG1 c (hG4 c hc)
      omega
    have hG3 : ∀ c ∈ removeLowerScores (l.mergeSort scoreLe),
        c.word.length = h2.word.length →
        c ∈ removeHigherLengths
          ((removeLowerScores (l.mergeSort scoreLe)).mergeSort lengthLe) := by
      intro c hc hcn
      rw [hl2]
      have hc0 : c ∈ h2 :: t2 := by
        rw [← ht2]
        exact hperm2.mem_iff.mpr hc
      rcases List.mem_cons.mp hc0 with h1 | h1
      · rw [h1]
        exact List.mem_cons_self _ _
      · exact List.mem_cons_of_mem _
          (mem_takeWhile_length h2.word.length t2 hpt2.1 hpt2.2 c h1 hcn)
    by_cases hlen2 : 1 < (removeHigherLengths
        ((removeLowerScores (l.mergeSort scoreLe)).mergeSort
          lengthLe)).length
    · -- alphabetical stage runs
      have hperm3 : List.Perm
          ((removeHigherLengths
            ((removeLowerScores (l.mergeSort scoreLe)).mergeSort
              lengthLe)).mergeSort alphaLe)
          (removeHigherLengths
            ((removeLowerScores (l.mergeSort scoreLe)).mergeSort lengthLe)) :=
        List.mergeSort_perm _ alphaLe
      have hp3 : ((removeHigherLengths
          ((removeLowerScores (l.mergeSort scoreLe)).mergeSort
            lengthLe)).mergeSort alphaLe).Pairwise
          (fun a b => lexLe a.word b.word = true) :=
        (List.sorted_mergeSort alphaLe_trans alphaLe_total _).imp
          (fun hab => hab)
      have hne3 : (removeHigherLengths
          ((removeLowerScores (l.mergeSort scoreLe)).mergeSort
            lengthLe)).mergeSort alphaLe ≠ [] := by
        intro he
        have hlen := hperm3.length_eq
        rw [he] at hlen
        simp at hlen
        omega
      obtain ⟨h3, t3, ht3⟩ : ∃ h3 t3,
          (removeHigherLengths
            ((removeLowerScores (l.mergeSort scoreLe)).mergeSort
              lengthLe)).mergeSort alphaLe = h3 :: t3 := by
        cases hcase : (removeHigherLengths
            ((removeLowerScores (l.mergeSort scoreLe)).mergeSort
              lengthLe)).mergeSort alphaLe with
        | nil => exact absurd hcase hne3
        | cons a b => exact ⟨a, b, rfl⟩
      have hh3mem : h3 ∈ removeHigherLengths
          ((removeLowerScores (l.mergeSort scoreLe)).mergeSort lengthLe) := by
        apply hperm3.mem_iff.mp
        rw [ht3]
        exact List.mem_cons_self _ _
      have hH1 : ∀ c ∈ removeHigherLengths
          ((removeLowerScores (l.mergeSort scoreLe)).mergeSort lengthLe),
          lexLe h3.word c.word = true := by
        intro c hc
        have hc0 : c ∈ h3 :: t3 := by
          rw [← ht3]
          exact hperm3.mem_iff.mpr hc
        rcases List.mem_cons.mp hc0 with h1 | h1
        · rw [h1]
          exact lexLe_refl _
        · have hrel := List.rel_of_pairwise_cons (ht3 ▸ hp3) h1
          exact hrel
      have hrank : rankWords l = h3 :: t3 := by
        rw [rankWords_eq, if_pos hlen1, if_pos hlen2, ht3]
      refine ⟨h3, ?_, ?_, ?_, ?_, ?_⟩
      · rw [rankWinner, hrank]
        rfl
      · exact hF4 h3 (hG4 h3 hh3mem)
      · intro c hc
        rw [hF2 h3 (hG4 h3 hh3mem)]
        exact hmax c hc
      · intro c hc hcs
        rw [hF2 h3 (hG4 h3 hh3mem)] at hcs
        have hc1 := hF3 c hc hcs
        rw [hG2 h3 hh3mem]
        exact hG1 c hc1
      · intro c hc hcs hcn
        rw [hF2 h3 (hG4 h3 hh3mem)] at hcs
        have hc1 := hF3 c hc hcs
        rw [hG2 h3 hh3mem] at hcn
        exact hH1 c (hG3 c hc1 hcn)
    · -- exactly one shortest candidate remains
      have htw2 : t2.takeWhile (fun x => x.word.length ≤ h2.word.length)
          = [] := by
        cases hcase : t2.takeWhile (fun x => x.word.length ≤ h2.word.length)
            with
        | nil => rfl
        | cons a b =>
          exfalso
          apply hlen2
          rw [hl2, hcase]
          simp
      have hL2 : removeHigherLengths
          ((removeLowerScores (l.mergeSort scoreLe)).mergeSort lengthLe)
          = [h2] := by
        rw [hl2, htw2]
      have hrank : rankWords l = [h2] := by
        rw [rankWords_eq, if_pos hlen1, if_neg hlen2, hL2]
      refine ⟨h2, ?_, ?_, ?_, ?_, ?_⟩
      · rw [rankWinner, hrank]
        rfl
      · exact hF4 h2 hh2mem
      · intro c hc
        rw [hF2 h2 hh2mem]
        exact hmax c hc
      · intro c hc hcs
        rw [hF2 h2 hh2mem] at hcs
        exact hG1 c (hF3 c hc hcs)
      · intro c hc hcs hcn
        rw [hF2 h2 hh2mem] at hcs
        have hc2 := hG3 c (hF3 c hc hcs) hcn
        rw [hL2] at hc2
        have : c = h2 := by simpa using hc2
        rw [this]
        exact lexLe_refl _
  · -- exactly one top-score candidate remains
    have htw : t.takeWhile (fun x => x.score = h.score) = [] := by
      cases hcase : t.takeWhile (fun x => x.score = h.score) with
      | nil => rfl
      | cons a b =>
        exfalso
        apply hlen1
        rw [hl1, hcase]
        simp
    have hL1 : removeLowerScores (l.mergeSort scoreLe) = [h] := by
      rw [hl1, htw]
    have hrank : rankWords l = [h] := by
      rw [rankWords_eq, if_neg hlen1, hL1]
    refine ⟨h, ?_, ?_, ?_, ?_, ?_⟩
    · rw [rankWinner, hrank]
      rfl
    · exact hF4 h (by rw [hL1]; exact List.mem_cons_self _ _)
    · exact hmax
    · intro c hc hcs
      have hc1 := hF3 c hc hcs
      rw [hL1] at hc1
      have : c = h := by simpa using hc1
      rw [this]
    · intro c hc hcs hcn
      have hc1 := hF3 c hc hcs
      rw [hL1] at hc1
      have : c = h := by simpa using hc1
      rw [this]
      exact lexLe_refl _

/-! ## scoreWords and permutation lemmas -/

/-- A successful `scoreWords` run scores every candidate and equals the
`filterMap` of per-candidate scoring. -/
theorem scoreWords_eq_some (tbl : Char → Option Nat) (bonus : Option Int) :
    ∀ (m : List MatchCand) (s : List ScoredCand),
      scoreWords tbl bonus m = some s →
      (∀ c ∈ m, (scoreWord tbl bonus c.word).isSome) ∧
        s = m.filterMap (fun c => (scoreWord tbl bonus c.word).map
          (fun v => ⟨c.word, c.unusedLetters, v⟩))
  | [], s, hs => by
    refine ⟨by simp, ?_⟩
    simpa [scoreWords] using hs.symm
  | c :: rest, s, hs => by
    rw [scoreWords] at hs
    cases hv : scoreWord tbl bonus c.word with
    | none => rw [hv] at hs; exact absurd hs (by simp)
    | some v =>
      rw [hv] at hs
      cases hr : scoreWords tbl bonus rest with
      | none => rw [hr] at hs; exact absurd hs (by simp)
      | some rest' =>
        rw [hr] at hs
        obtain ⟨hall, heq⟩ := scoreWords_eq_some tbl bonus rest rest' hr
        refine ⟨?_, ?_⟩
        · intro d hd
          rcases List.mem_cons.mp hd with h1 | h1
          · rw [h1, hv]
            rfl
          · exact hall d h1
        · have : s = ⟨c.word, c.unusedLetters, v⟩ :: rest' := by
            simpa using hs.symm
          rw [this, heq, List.filterMap_cons, hv]
          rfl

/-- Conversely, when every candidate scores, `scoreWords` succeeds. -/
theorem scoreWords_of_all_some (tbl : Char → Option Nat) (bonus : Option Int) :
    ∀ m : List MatchCand, (∀ c ∈ m, (scoreWord tbl bonus c.word).isSome) →
      scoreWords tbl bonus m
        = some (m.filterMap (fun c => (scoreWord tbl bonus c.word).map
            (fun v => ⟨c.word, c.unusedLetters, v⟩)))
  | [], _ => rfl
  | c :: rest, h => by
    have hc := h c (List.mem_cons_self c rest)
    obtain ⟨v, hv⟩ := Option.isSome_iff_exists.mp hc
    rw [scoreWords, hv,
      scoreWords_of_all_some tbl bonus rest
        (fun d hd => h d (List.mem_cons_of_mem c hd)),
      List.filterMap_cons, hv]
    rfl

/-- `scoreWords` transfers along permutations of the candidate list. -/
theorem scoreWords_perm (tbl : Char → Option Nat) (bonus : Option Int)
    {m₁ m₂ : List MatchCand} (hperm : List.Perm m₁ m₂)
    {s₁ : List ScoredCand} (h1 : scoreWords tbl bonus m₁ = some s₁) :
    ∃ s₂, scoreWords tbl bonus m₂ = some s₂ ∧ List.Perm s₁ s₂ := by
  obtain ⟨hall, heq⟩ := scoreWords_eq_some tbl bonus m₁ s₁ h1
  refine ⟨m₂.filterMap (fun c => (scoreWord tbl bonus c.word).map
    (fun v => ⟨c.word, c.unusedLetters, v⟩)), ?_, ?_⟩
  · exact scoreWords_of_all_some tbl bonus m₂
      (fun c hc => hall c (hperm.mem_iff.mpr hc))
  · rw [heq]
    exact hperm.filterMap _

/-! ## Claim theorems: ranker and pipeline -/

/-- C2: for every non-empty list of scored candidates, ranking returns
exactly one winner: a candidate of the list whose score is maximal, whose
word length is minimal among the maximal-score candidates, and whose word
is lexicographically least among those — unique and deterministic given
identical scores/lengths/words. -/
theorem c2_rank_winner (l : List ScoredCand) (hne : l ≠ []) :
    ∃ w, rankWinner l = some w ∧ w ∈ l ∧
      (∀ c ∈ l, c.score ≤ w.score) ∧
      (∀ c ∈ l, c.score = w.score → w.word.length ≤ c.word.length) ∧
      (∀ c ∈ l, c.score = w.score → c.word.length = w.word.length →
        lexLe w.word c.word = true) :=
  rank_spec l hne

/-- C2 witness: the theorem applied to the spec's Ranker example
`[{word:"AB",score:5},{word:"CD",score:5},{word:"E",score:5}]`, whose
winner evaluates to `{word:"E"}`. -/
theorem c2_witness :
    (∃ w, rankWinner ([⟨['A', 'B'], [], 5⟩, ⟨['C', 'D'], [], 5⟩,
        ⟨['E'], [], 5⟩] : List ScoredCand) = some w ∧
      w ∈ ([⟨['A', 'B'], [], 5⟩, ⟨['C', 'D'], [], 5⟩, ⟨['E'], [], 5⟩] :
        List ScoredCand) ∧
      (∀ c ∈ ([⟨['A', 'B'], [], 5⟩, ⟨['C', 'D'], [], 5⟩, ⟨['E'], [], 5⟩] :
          List ScoredCand),
        c.score ≤ w.score) ∧
      (∀ c ∈ ([⟨['A', 'B'], [], 5⟩, ⟨['C', 'D'], [], 5⟩, ⟨['E'], [], 5⟩] :
          List ScoredCand),
        c.score = w.score → w.word.length ≤ c.word.length) ∧
      (∀ c ∈ ([⟨['A', 'B'], [], 5⟩, ⟨['C', 'D'], [], 5⟩, ⟨['E'], [], 5⟩] :
          List ScoredCand),
        c.score = w.score → c.word.length = w.word.length →
        lexLe w.word c.word = true)) ∧
      rankWinner ([⟨['A', 'B'], [], 5⟩, ⟨['C', 'D'], [], 5⟩,
        ⟨['E'], [], 5⟩] : List ScoredCand) = some ⟨['E'], [], 5⟩ :=
  ⟨c2_rank_winner _ (by decide), by
    simp [rankWinner, rankWords_eq, List.mergeSort, List.merge,
      removeLowerScores, removeHigherLengths, scoreLe, lengthLe, alphaLe,
      lexLe]⟩

/-- C8: for two dictionaries that are permutations of each other and fixed
input letters and bonus position, the full pipeline (build matched words,
score them, rank them) selects winners with the same word and the same
score — dictionary iteration order does not affect the final winner. -/
theorem c8_dictionary_order_irrelevant (acc : Char → Option Char)
    (tbl : Char → Option Nat) (bonus : Option Int)
    (d₁ d₂ : List (List Char)) (input : List Char)
    (hperm : List.Perm d₁ d₂) (w₁ : ScoredCand)
    (h1 : roundWinner acc tbl bonus d₁ input = some w₁) :
    ∃ w₂, roundWinner acc tbl bonus d₂ input = some w₂ ∧
      w₁.word = w₂.word ∧ w₁.score = w₂.score := by
  have hbuild : List.Perm (buildWords acc d₁ input) (buildWords acc d₂ input) :=
    hperm.filterMap _
  cases hs1 : scoreWords tbl bonus (buildWords acc d₁ input) with
  | none =>
    simp only [roundWinner, hs1] at h1
    exact Option.noConfusion h1
  | some s₁ =>
    simp only [roundWinner, hs1] at h1
    obtain ⟨s₂, hs2, hsperm⟩ := scoreWords_perm tbl bonus hbuild hs1
    have hne1 : s₁ ≠ [] := by
      intro he
      rw [he] at h1
      have hnil : rankWinner ([] : List ScoredCand) = none := by
        simp [rankWinner, rankWords_eq, List.mergeSort, removeLowerScores]
      rw [hnil] at h1
      exact Option.noConfusion h1
    have hne2 : s₂ ≠ [] := by
      intro he
      apply hne1
      have hlen := hsperm.length_eq
      rw [he] at hlen
      simpa using List.eq_nil_of_length_eq_zero hlen
    obtain ⟨w₁', hw1eq, hw1mem, hb1, hc1, hd1⟩ := rank_spec s₁ hne1
    obtain ⟨w₂, hw2eq, hw2mem, hb2, hc2, hd2⟩ := rank_spec s₂ hne2
    have hw1 : w₁' = w₁ := by
      rw [h1] at hw1eq
      exact (Option.some.inj hw1eq).symm
    subst hw1
    have hm12 : w₁' ∈ s₂ := hsperm.mem_iff.mp hw1mem
    have hm21 : w₂ ∈ s₁ := hsperm.mem_iff.mpr hw2mem
    have hscore : w₁'.score = w₂.score := by
      have h12 := hb2 w₁' hm12
      have h21 := hb1 w₂ hm21
      omega
    have hlen12 : w₁'.word.length = w₂.word.length := by
      have h12 := hc2 w₁' hm12 hscore
      have h21 := hc1 w₂ hm21 hscore.symm
      omega
    have hword : w₁'.word = w₂.word := by
      have h12 := hd2 w₁' hm12 hscore hlen12
      have h21 := hd1 w₂ hm21 hscore.symm hlen12.symm
      exact (lexLe_antisymm w₂.word w₁'.word h12 h21).symm
    refine ⟨w₂, ?_, hword, hscore⟩
    simp only [roundWinner, hs2]
    exact hw2eq

/-- C8 witness: the theorem applied to the two-word dictionaries
`["A", "B"]` and `["B", "A"]` with input letters `"AB"`, score table
`{A: 1, B: 2}` and bonus position `1`; the winner of the first run is
`{word: "B", score: 4}`. -/
theorem c8_witness :
    ∃ w₂, roundWinner accTableNone scoreTableAB (some 1) [['B'], ['A']]
        ['A', 'B'] = some w₂ ∧
      (⟨['B'], ['A'], 4⟩ : ScoredCand).word = w₂.word ∧
      (⟨['B'], ['A'], 4⟩ : ScoredCand).score = w₂.score :=
  c8_dictionary_order_irrelevant accTableNone scoreTableAB (some 1)
    [['A'], ['B']] [['B'], ['A']] ['A', 'B'] (by decide) ⟨['B'], ['A'], 4⟩
    (by
      simp [roundWinner, buildWords, formatWordA, removeWhitespaces,
        removeNumbers, removeSpecialCharactersA, keepSpecialA, isAsciiLetter,
        isAsciiLower, isAsciiUpper, isDecDigit, jsToUpper, jsUpperChar,
        removeAccentuation, accTableNone, matchWord, matchWordGo,
        formatUnusedLetters, scoreWords, scoreWord, scoreWordGo, scoreTableAB,
        rankWinner, rankWords_eq, List.mergeSort, List.merge,
        removeLowerScores, removeHigherLengths, scoreLe, lengthLe, alphaLe,
        lexLe, List.filter, List.flatMap])

/-! ## Normalizer lemmas -/

theorem char_toNat_ofNat {m : Nat} (h : m < 55296) :
    (Char.ofNat m).toNat = m := by
  rw [Char.ofNat, dif_pos (Or.inl h)]
  rfl

theorem isDecDigit_iff {c : Char} :
    isDecDigit c = true ↔ 48 ≤ c.toNat ∧ c.toNat ≤ 57 := by
  simp only [isDecDigit, Bool.and_eq_true, decide_eq_true_eq]
  exact Iff.rfl

theorem isAsciiLower_iff {c : Char} :
    isAsciiLower c = true ↔ 97 ≤ c.toNat ∧ c.toNat ≤ 122 := by
  simp only [isAsciiLower, Bool.and_eq_true, decide_eq_true_eq]
  exact Iff.rfl

theorem isAsciiUpper_iff {c : Char} :
    isAsciiUpper c = true ↔ 65 ≤ c.toNat ∧ c.toNat ≤ 90 := by
  simp only [isAsciiUpper, Bool.and_eq_true, decide_eq_true_eq]
  exact Iff.rfl

theorem jsUpperChar_space : jsUpperChar ' ' = [' '] := by decide

theorem jsUpperChar_digit {c : Char} (h : isDecDigit c = true) :
    jsUpperChar c = [c] := by
  have hb := isDecDigit_iff.mp h
  have hlow : isAsciiLower c = false := by
    rcases Bool.eq_false_or_eq_true (isAsciiLower c) with ht | hf
    · have := isAsciiLower_iff.mp ht
      omega
    · exact hf
  have h1 : c ≠ 'ß' := by
    intro he
    rw [he] at hb
    exact absurd hb (by decide)
  have h2 : c ≠ 'µ' := by
    intro he
    rw [he] at hb
    exact absurd hb (by decide)
  have h3 : c ≠ 'ÿ' := by
    intro he
    rw [he] at hb
    exact absurd hb (by decide)
  have h4 : decide ('à' ≤ c) = false := by
    apply decide_eq_false
    intro hle
    have : 224 ≤ c.toNat := hle
    omega
  simp [jsUpperChar, hlow, h1, h2, h3, h4]

theorem jsUpperChar_upper {c : Char} (h : isAsciiUpper c = true) :
    jsUpperChar c = [c] := by
  have hb := isAsciiUpper_iff.mp h
  have hlow : isAsciiLower c = false := by
    rcases Bool.eq_false_or_eq_true (isAsciiLower c) with ht | hf
    · have := isAsciiLower_iff.mp ht
      omega
    · exact hf
  have h1 : c ≠ 'ß' := by
    intro he
    rw [he] at hb
    exact absurd hb (by decide)
  have h2 : c ≠ 'µ' := by
    intro he
    rw [he] at hb
    exact absurd hb (by decide)
  have h3 : c ≠ 'ÿ' := by
    intro he
    rw [he] at hb
    exact absurd hb (by decide)
  have h4 : decide ('à' ≤ c) = false := by
    apply decide_eq_false
    intro hle
    have : 224 ≤ c.toNat := hle
    omega
  simp [jsUpperChar, hlow, h1, h2, h3, h4]

theorem jsUpperChar_lower {c : Char} (h : isAsciiLower c = true) :
    jsUpperChar c = [Char.ofNat (c.toNat - 32)] ∧
      isAsciiUpper (Char.ofNat (c.toNat - 32)) = true := by
  have hb := isAsciiLower_iff.mp h
  have ht : (Char.ofNat (c.toNat - 32)).toNat = c.toNat - 32 :=
    char_toNat_ofNat (by omega)
  constructor
  · simp [jsUpperChar, h]
  · apply isAsciiUpper_iff.mpr
    rw [ht]
    omega

theorem upper_char_props {d : Char} (h : isAsciiUpper d = true) :
    d ≠ ' ' ∧ isDecDigit d = false ∧ keepSpecialA d = true ∧
      isJsWordChar d = true := by
  have hb := isAsciiUpper_iff.mp h
  refine ⟨?_, ?_, ?_, ?_⟩
  · intro he
    rw [he] at hb
    exact absurd hb (by decide)
  · rcases Bool.eq_false_or_eq_true (isDecDigit d) with ht | hf
    · have := isDecDigit_iff.mp ht
      omega
    · exact hf
  · simp [keepSpecialA, isAsciiLetter, h]
  · simp [isJsWordChar, isAsciiLetter, h]

theorem letter_char_props {c : Char} (h : isAsciiLetter c = true) :
    c ≠ ' ' ∧ isDecDigit c = false ∧ keepSpecialA c = true := by
  have hb : (97 ≤ c.toNat ∧ c.toNat ≤ 122) ∨ (65 ≤ c.toNat ∧ c.toNat ≤ 90) := by
    rcases Bool.or_eq_true_iff.mp h with h1 | h1
    · exact Or.inl (isAsciiLower_iff.mp h1)
    · exact Or.inr (isAsciiUpper_iff.mp h1)
  refine ⟨?_, ?_, ?_⟩
  · intro he
    rw [he] at hb
    rcases hb with hb | hb <;> exact absurd hb (by decide)
  · rcases Bool.eq_false_or_eq_true (isDecDigit c) with ht | hf
    · have := isDecDigit_iff.mp ht
      omega
    · exact hf
  · simp [keepSpecialA, h]

theorem removeWhitespaces_cons_space (t : List Char) :
    removeWhitespaces (' ' :: t) = removeWhitespaces t := by
  simp [removeWhitespaces]

theorem removeWhitespaces_cons_keep {c : Char} (hc : c ≠ ' ') (t : List Char) :
    removeWhitespaces (c :: t) = c :: removeWhitespaces t := by
  simp [removeWhitespaces, hc]

theorem removeNumbers_cons_digit {c : Char} (hc : isDecDigit c = true)
    (t : List Char) : removeNumbers (c :: t) = removeNumbers t := by
  simp [removeNumbers, hc]

theorem removeNumbers_cons_keep {c : Char} (hc : isDecDigit c = false)
    (t : List Char) : removeNumbers (c :: t) = c :: removeNumbers t := by
  simp [removeNumbers, hc]

theorem jsToUpper_cons (c : Char) (t : List Char) :
    jsToUpper (c :: t) = jsUpperChar c ++ jsToUpper t := by
  simp [jsToUpper]

theorem removeAccentuation_foldl_id (acc : Char → Option Char) :
    ∀ (t cur : List Char), (∀ c ∈ t, acc c = none) →
      t.foldl
        (fun cur letter =>
          match acc letter with
          | some r => replaceFirst cur letter r
          | none => cur) cur = cur
  | [], _, _ => rfl
  | d :: t', cur, h => by
    rw [List.foldl_cons]
    have hd : acc d = none := h d (List.mem_cons_self d t')
    rw [show (match acc d with
        | some r => replaceFirst cur d r
        | none => cur) = cur from by rw [hd]]
    exact removeAccentuation_foldl_id acc t' cur
      (fun c hc => h c (List.mem_cons_of_mem d hc))

theorem removeAccentuation_id {acc : Char → Option Char} {s : List Char}
    (h : ∀ c ∈ s, acc c = none) : removeAccentuation acc s = s :=
  removeAccentuation_foldl_id acc s s h

theorem mem_jsToUpper_of_letters :
    ∀ s : List Char, (∀ c ∈ s, isAsciiLetter c = true) →
      ∀ d ∈ jsToUpper s, isAsciiUpper d = true
  | [], _, d, hd => absurd hd (by simp [jsToUpper])
  | c :: cs, h, d, hd => by
    rw [jsToUpper_cons] at hd
    rcases List.mem_append.mp hd with h1 | h1
    · have hc := h c (List.mem_cons_self c cs)
      rcases Bool.or_eq_true_iff.mp hc with hl | hu
      · obtain ⟨he, hup⟩ := jsUpperChar_lower hl
        rw [he] at h1
        have : d = Char.ofNat (c.toNat - 32) := by simpa using h1
        rw [this]
        exact hup
      · rw [jsUpperChar_upper hu] at h1
        have : d = c := by simpa using h1
        rw [this]
        exact hu
    · exact mem_jsToUpper_of_letters cs
        (fun e he => h e (List.mem_cons_of_mem c he)) d h1

theorem mem_jsToUpper_of_domain :
    ∀ s : List Char,
      (∀ c ∈ s, c = ' ' ∨ isDecDigit c = true ∨ isAsciiLetter c = true) →
      ∀ d ∈ jsToUpper s,
        d = ' ' ∨ isDecDigit d = true ∨ isAsciiUpper d = true
  | [], _, d, hd => absurd hd (by simp [jsToUpper])
  | c :: cs, h, d, hd => by
    rw [jsToUpper_cons] at hd
    rcases List.mem_append.mp hd with h1 | h1
    · rcases h c (List.mem_cons_self c cs) with hsp | hdig | hlet
      · rw [hsp, jsUpperChar_space] at h1
        exact Or.inl (by simpa using h1)
      · rw [jsUpperChar_digit hdig] at h1
        have : d = c := by simpa using h1
        rw [this]
        exact Or.inr (Or.inl hdig)
      · rcases Bool.or_eq_true_iff.mp hlet with hl | hu
        · obtain ⟨he, hup⟩ := jsUpperChar_lower hl
          rw [he] at h1
          have : d = Char.ofNat (c.toNat - 32) := by simpa using h1
          rw [this]
          exact Or.inr (Or.inr hup)
        · rw [jsUpperChar_upper hu] at h1
          have : d = c := by simpa using h1
          rw [this]
          exact Or.inr (Or.inr hu)
    · exact mem_jsToUpper_of_domain cs
        (fun e he => h e (List.mem_cons_of_mem c he)) d h1

/-- Stripping spaces and digits commutes with uppercasing on texts made of
spaces, digits and ASCII letters. -/
theorem strip_jsToUpper_comm :
    ∀ s : List Char,
      (∀ c ∈ s, c = ' ' ∨ isDecDigit c = true ∨ isAsciiLetter c = true) →
      removeNumbers (removeWhitespaces (jsToUpper s))
        = jsToUpper (removeNumbers (removeWhitespaces s))
  | [], _ => rfl
  | c :: cs, h => by
    have ih := strip_jsToUpper_comm cs
      (fun e he => h e (List.mem_cons_of_mem c he))
    rcases h c (List.mem_cons_self c cs) with hsp | hdig | hlet
    · rw [hsp, jsToUpper_cons, jsUpperChar_space, List.singleton_append,
        removeWhitespaces_cons_space, removeWhitespaces_cons_space, ih]
    · have hcsp : c ≠ ' ' := by
        intro he
        rw [he] at hdig
        exact absurd hdig (by decide)
      rw [jsToUpper_cons, jsUpperChar_digit hdig, List.singleton_append,
        removeWhitespaces_cons_keep hcsp, removeWhitespaces_cons_keep hcsp,
        removeNumbers_cons_digit hdig, removeNumbers_cons_digit hdig, ih]
    · obtain ⟨hcsp, hcdig, _⟩ := letter_char_props hlet
      rcases Bool.or_eq_true_iff.mp hlet with hl | hu
      · obtain ⟨he, hup⟩ := jsUpperChar_lower hl
        obtain ⟨hdsp, hddig, _, _⟩ := upper_char_props hup
        rw [jsToUpper_cons, he, List.singleton_append,
          removeWhitespaces_cons_keep hdsp, removeNumbers_cons_keep hddig,
          removeWhitespaces_cons_keep hcsp, removeNumbers_cons_keep hcdig,
          jsToUpper_cons, he, List.singleton_append, ih]
      · obtain ⟨hdsp, hddig, _, _⟩ := upper_char_props hu
        rw [jsToUpper_cons, jsUpperChar_upper hu, List.singleton_append,
          removeWhitespaces_cons_keep hdsp, removeNumbers_cons_keep hddig,
          removeWhitespaces_cons_keep hcsp, removeNumbers_cons_keep hcdig,
          jsToUpper_cons, jsUpperChar_upper hu, List.singleton_append, ih]

/-! ## Claim theorems: normalizer variants -/

/-- C5 counterexample: on the input `"_"` (with an empty accentuation
table) the in-place variant yields the empty canonical word while the
single-argument variant keeps the underscore (its `[^\w\s]+` regex treats
`_` as a word character), so the two normalization variants disagree. -/
theorem c5_counterexample :
    formatWordA accTableNone ['_'] = [] ∧
      formatWordB accTableNone ['_'] = ['_'] ∧
      formatWordA accTableNone ['_'] ≠ formatWordB accTableNone ['_'] := by
  refine ⟨by decide, by decide, by decide⟩

/-- C5 (amended): the two normalization variants agree on every input text
consisting only of spaces, digits and unaccented ASCII letters, provided
the accentuation table has no uppercase-ASCII keys; on other characters
(`_`, tabs, `×`, `ß`, …) they can differ. -/
theorem c5_variants_agree (acc : Char → Option Char) (s : List Char)
    (hdom : ∀ c ∈ s, c = ' ' ∨ isDecDigit c = true ∨ isAsciiLetter c = true)
    (hacc : ∀ c, isAsciiUpper c = true → acc c = none) :
    formatWordA acc s = formatWordB acc s := by
  have hdom1 : ∀ c ∈ removeNumbers (removeWhitespaces s),
      isAsciiLetter c = true := by
    intro c hc
    have h1 := List.mem_filter.mp hc
    have h2 := List.mem_filter.mp h1.1
    rcases hdom c h2.1 with h | h | h
    · exact absurd h (by simpa using h2.2)
    · exact absurd h (by simpa using h1.2)
    · exact h
  have hA2 : removeSpecialCharactersA (removeNumbers (removeWhitespaces s))
      = removeNumbers (removeWhitespaces s) :=
    List.filter_eq_self.mpr
      (fun c hc => (letter_char_props (hdom1 c hc)).2.2)
  have hupA : ∀ d ∈ jsToUpper (removeNumbers (removeWhitespaces s)),
      isAsciiUpper d = true :=
    mem_jsToUpper_of_letters _ hdom1
  have hA : formatWordA acc s
      = jsToUpper (removeNumbers (removeWhitespaces s)) := by
    rw [formatWordA, hA2, removeAccentuation_id
      (fun d hd => hacc d (hupA d hd))]
  have hdomU : ∀ d ∈ jsToUpper s,
      d = ' ' ∨ isDecDigit d = true ∨ isAsciiUpper d = true :=
    mem_jsToUpper_of_domain s hdom
  have hdom2 : ∀ d ∈ removeNumbers (removeWhitespaces (jsToUpper s)),
      isAsciiUpper d = true := by
    intro d hd
    have h1 := List.mem_filter.mp hd
    have h2 := List.mem_filter.mp h1.1
    rcases hdomU d h2.1 with h | h | h
    · exact absurd h (by simpa using h2.2)
    · exact absurd h (by simpa using h1.2)
    · exact h
  have hB3 : removeAccentuation acc
      (removeNumbers (removeWhitespaces (jsToUpper s)))
      = removeNumbers (removeWhitespaces (jsToUpper s)) :=
    removeAccentuation_id (fun d hd => hacc d (hdom2 d hd))
  have hB4 : removeSpecialCharactersB
      (removeNumbers (removeWhitespaces (jsToUpper s)))
      = removeNumbers (removeWhitespaces (jsToUpper s)) :=
    List.filter_eq_self.mpr
      (fun d hd => by simp [(upper_char_props (hdom2 d hd)).2.2.2])
  have hB : formatWordB acc s
      = removeNumbers (removeWhitespaces (jsToUpper s)) := by
    rw [formatWordB, hB3, hB4]
  rw [hA, hB, strip_jsToUpper_comm s hdom]

/-- C5 witness: the amended theorem applied to the input `"ab 1C"` with the
empty accentuation table. -/
theorem c5_witness :
    formatWordA accTableNone ['a', 'b', ' ', '1', 'C']
      = formatWordB accTableNone ['a', 'b', ' ', '1', 'C'] :=
  c5_variants_agree accTableNone ['a', 'b', ' ', '1', 'C'] (by decide)
    (fun c _ => rfl)

end WordScramble
